import Mathlib

/-!
Verification of the GPT2-with-noise training script (`src/GPT/train.py`).

The numeric computations of the script are embedded shallowly over `ℚ`.
Floating-point transcendental kernels (`exp`, `log`, GELU, the inverse
square root used by layer normalization and attention scaling, and
`cos (π·r)` in the learning-rate schedule) are abstracted as explicit
function parameters (`Kernels`, `cospi`, `invSqrt`): every theorem below
is about the data flow and exact arithmetic structure of the code, which
is independent of the particular values those kernels take, and each
theorem that needs a specific kernel value states it as a hypothesis.
-/

open Finset BigOperators

/-- `GPTConfig` from `train.py` (lines 15-22). -/
structure GPTConfig where
  block_size : ℕ
  vocab_size : ℕ
  n_layer : ℕ
  n_head : ℕ
  n_embd : ℕ
  batch_size : ℕ

/-- The abstracted nonlinear scalar kernels of the script: `qexp` models the
exponential used inside softmax, `qlog` the logarithm of cross-entropy,
`gelu` the GELU nonlinearity of the MLP, and `rsqrt` the map `x ↦ x ** (-1/2)`
used by attention scaling and layer normalization. -/
structure Kernels where
  qexp : ℚ → ℚ
  qlog : ℚ → ℚ
  gelu : ℚ → ℚ
  rsqrt : ℚ → ℚ

/-- An `nn.Linear(nin, nout)` layer: weight matrix of shape `(nout, nin)`
and bias vector of length `nout`. -/
structure Linear (nin nout : ℕ) where
  weight : Fin nout → Fin nin → ℚ
  bias : Fin nout → ℚ

/-- `y = x Wᵀ + b`, the forward map of `nn.Linear` on one vector. -/
def Linear.apply {nin nout : ℕ} (l : Linear nin nout) (x : Fin nin → ℚ) : Fin nout → ℚ :=
  fun o => (∑ i, l.weight o i * x i) + l.bias o

/-- Parameters of an `nn.LayerNorm(E)` module. -/
structure LNParams (E : ℕ) where
  gamma : Fin E → ℚ
  beta : Fin E → ℚ

/-- The default `eps` of `nn.LayerNorm`. -/
def lnEps : ℚ := 1 / 100000

/-- `nn.LayerNorm` forward on one position:
`γ ⊙ (x - μ) / sqrt (var + eps) + β`, with the inverse square root
abstracted as `rsq`. -/
def layerNorm {E : ℕ} (rsq : ℚ → ℚ) (p : LNParams E) (x : Fin E → ℚ) : Fin E → ℚ :=
  fun i =>
    p.gamma i * ((x i - (∑ j, x j) / (E : ℚ))
        * rsq ((∑ j, (x j - (∑ l, x l) / (E : ℚ)) ^ 2) / (E : ℚ) + lnEps))
      + p.beta i

/-- Parameters of `SelfAttention` (train.py lines 25-34): the fused
query/key/value projection `c_attn : Linear(E, 3E)` and the output
projection `c_proj : Linear(E, E)`. -/
structure AttnParams (E : ℕ) where
  c_attn : Linear E (3 * E)
  c_proj : Linear E E

/-- Index of channel `c` inside the query third of the fused qkv vector. -/
def qIdx (E : ℕ) (c : Fin E) : Fin (3 * E) :=
  ⟨c.val, by have := c.isLt; omega⟩

/-- Index of channel `c` inside the key third of the fused qkv vector. -/
def kIdx (E : ℕ) (c : Fin E) : Fin (3 * E) :=
  ⟨E + c.val, by have := c.isLt; omega⟩

/-- Index of channel `c` inside the value third of the fused qkv vector. -/
def vIdx (E : ℕ) (c : Fin E) : Fin (3 * E) :=
  ⟨2 * E + c.val, by have := c.isLt; omega⟩

/-- The channel holding dimension `j` of head `h` after the
`view(B, T, n_head, C // n_head)` reshape: channel `h * (E / nh) + j`. -/
def headChan (E nh : ℕ) (h : Fin nh) (j : Fin (E / nh)) : Fin E :=
  ⟨h.val * (E / nh) + j.val, by
    have hj := j.isLt
    have hh : h.val + 1 ≤ nh := h.isLt
    have h1 : h.val * (E / nh) + j.val < (h.val + 1) * (E / nh) := by
      rw [Nat.succ_mul]; omega
    have h2 : (h.val + 1) * (E / nh) ≤ nh * (E / nh) :=
      Nat.mul_le_mul_right _ hh
    have h3 : nh * (E / nh) ≤ E := by
      rw [Nat.mul_comm]; exact Nat.div_mul_le_self E nh
    omega⟩

/-- The fused qkv projection `qkv = self.c_attn(x)` applied at every position. -/
def qkvOf {E T : ℕ} (p : AttnParams E) (x : Fin T → Fin E → ℚ) :
    Fin T → Fin (3 * E) → ℚ :=
  fun t => p.c_attn.apply (x t)

/-- Attention scores before the softmax: for query position `t` and key
position `s` of head `h`, the scaled dot product `⟨q_t, k_s⟩ / sqrt(hs)`
(the `1 / sqrt (head size)` factor of `scaled_dot_product_attention`). -/
def attScores {E T : ℕ} (K : Kernels) (nh : ℕ) (p : AttnParams E)
    (x : Fin T → Fin E → ℚ) : Fin T → Fin nh → Fin T → ℚ :=
  fun t h s =>
    (∑ j, qkvOf p x t (qIdx E (headChan E nh h j))
        * qkvOf p x s (kIdx E (headChan E nh h j)))
      * K.rsqrt ((E / nh : ℕ) : ℚ)

/-- Causal scaled-dot-product attention per head (`is_causal=True`): position
`t` attends only to positions `s ≤ t`, with softmax weights normalized over
those positions. -/
def attHead {E T : ℕ} (K : Kernels) (nh : ℕ) (p : AttnParams E)
    (x : Fin T → Fin E → ℚ) : Fin T → Fin nh → Fin (E / nh) → ℚ :=
  fun t h j =>
    ∑ s ∈ Finset.univ.filter (fun s => s ≤ t),
      (K.qexp (attScores K nh p x t h s)
          / ∑ u ∈ Finset.univ.filter (fun u => u ≤ t), K.qexp (attScores K nh p x t h u))
        * qkvOf p x s (vIdx E (headChan E nh h j))

/-- The re-assembled attention output `y.transpose(1, 2).contiguous().view(B, T, C)`:
channel `c` holds dimension `c % hs` of head `c / hs`. -/
def attnY {E T : ℕ} (K : Kernels) (nh : ℕ) (p : AttnParams E)
    (x : Fin T → Fin E → ℚ) : Fin T → Fin E → ℚ :=
  fun t c =>
    if hc : 0 < E / nh ∧ c.val / (E / nh) < nh then
      attHead K nh p x t ⟨c.val / (E / nh), hc.2⟩ ⟨c.val % (E / nh), Nat.mod_lt _ hc.1⟩
    else 0

/-- `SelfAttention.forward` (train.py lines 36-46). -/
def selfAttention {E T : ℕ} (K : Kernels) (nh : ℕ) (p : AttnParams E)
    (x : Fin T → Fin E → ℚ) : Fin T → Fin E → ℚ :=
  fun t => p.c_proj.apply (attnY K nh p x t)

/-- Parameters of `MLP` (train.py lines 63-69). -/
structure MLPParams (E : ℕ) where
  c_fc : Linear E (4 * E)
  c_proj : Linear (4 * E) E

/-- `MLP.forward`: `c_proj(gelu(c_fc(x)))`, position-wise. -/
def mlpForward {E : ℕ} (K : Kernels) (p : MLPParams E) (x : Fin E → ℚ) : Fin E → ℚ :=
  p.c_proj.apply (fun m => K.gelu (p.c_fc.apply x m))

/-- Parameters of one transformer `Block` (train.py lines 49-55). -/
structure BlockParams (E : ℕ) where
  ln_1 : LNParams E
  ln_2 : LNParams E
  attn : AttnParams E
  mlp : MLPParams E

/-- The first residual stage of `Block.forward`: `x + attn(ln_1(x))`. -/
def blockAttnStage {E T : ℕ} (K : Kernels) (nh : ℕ) (p : BlockParams E)
    (x : Fin T → Fin E → ℚ) : Fin T → Fin E → ℚ :=
  fun t => x t + selfAttention K nh p.attn (fun s => layerNorm K.rsqrt p.ln_1 (x s)) t

/-- `Block.forward` (train.py lines 57-60): `x + attn(ln_1 x)` followed by
`x + mlp(ln_2 x)`. -/
def blockForward {E T : ℕ} (K : Kernels) (nh : ℕ) (p : BlockParams E)
    (x : Fin T → Fin E → ℚ) : Fin T → Fin E → ℚ :=
  fun t => blockAttnStage K nh p x t
    + mlpForward K p.mlp (layerNorm K.rsqrt p.ln_2 (blockAttnStage K nh p x t))

/-- The parameters of `GPT` (train.py lines 76-89).  After the weight-tying
assignment `self.transformer.wte.weight = self.lm_head.weight` the token
embedding table and the `lm_head` weight are one tensor, so a single field
`wte` represents both. -/
structure GPTParams (cfg : GPTConfig) where
  wte : Fin cfg.vocab_size → Fin cfg.n_embd → ℚ
  wpe : Fin cfg.block_size → Fin cfg.n_embd → ℚ
  h : Fin cfg.n_layer → BlockParams cfg.n_embd
  ln_f : LNParams cfg.n_embd

/-- The logits computation of `GPT.forward` (train.py lines 103-113) on one
example of length `T ≤ block_size`: token plus positional embedding, the
block stack in order, final layer norm, then the (tied, bias-free) output
projection. -/
def gptBody (K : Kernels) (cfg : GPTConfig) (p : GPTParams cfg) {T : ℕ}
    (hT : T ≤ cfg.block_size) (idx : Fin T → Fin cfg.vocab_size) :
    Fin T → Fin cfg.vocab_size → ℚ :=
  fun t v =>
    ∑ i, p.wte v i
      * layerNorm K.rsqrt p.ln_f
          ((List.finRange cfg.n_layer).foldl
            (fun x l => blockForward K cfg.n_head (p.h l) x)
            (fun s => p.wpe (Fin.castLE hT s) + p.wte (idx s)) t) i

/-- `F.cross_entropy` on one row of logits: `log (∑ v, exp z_v) - z_y`. -/
def crossEntropy {V : ℕ} (K : Kernels) (z : Fin V → ℚ) (y : Fin V) : ℚ :=
  K.qlog (∑ v, K.qexp (z v)) - z y

/-- The `(b, t)` pair a flattened row index denotes after
`logits.view(-1, logits.size(-1))` on a `(B, T, V)` tensor. -/
def flatPair {B T : ℕ} (r : Fin (B * T)) : Fin B × Fin T :=
  ⟨⟨r.val / T, by
      have hr := r.isLt
      have hT : 0 < T := by
        rcases Nat.eq_zero_or_pos T with h0 | h0
        · subst h0; omega
        · exact h0
      exact Nat.div_lt_of_lt_mul (by rw [Nat.mul_comm T B]; exact hr)⟩,
   ⟨r.val % T, by
      have hr := r.isLt
      have hT : 0 < T := by
        rcases Nat.eq_zero_or_pos T with h0 | h0
        · subst h0; omega
        · exact h0
      exact Nat.mod_lt _ hT⟩⟩

/-- The mean cross-entropy of `F.cross_entropy(logits.view(-1, V), targets.view(-1))`:
the sum over all `B*T` flattened rows divided by the number of rows. -/
def meanFlatCE {B T V : ℕ} (K : Kernels) (logits : Fin B → Fin T → Fin V → ℚ)
    (tg : Fin B → Fin T → Fin V) : ℚ :=
  (∑ r : Fin (B * T),
      crossEntropy K (logits (flatPair r).1 (flatPair r).2) (tg (flatPair r).1 (flatPair r).2))
    / ((B * T : ℕ) : ℚ)

/-- `GPT.forward` on a batch, given that the sequence length passed the
`assert T <= self.config.block_size` check: returns the pair
`(logits, loss)`, with `loss = None` when no targets are supplied. -/
def GPTforward (K : Kernels) (cfg : GPTConfig) (p : GPTParams cfg) {B T : ℕ}
    (hT : T ≤ cfg.block_size) (idx : Fin B → Fin T → Fin cfg.vocab_size)
    (targets : Option (Fin B → Fin T → Fin cfg.vocab_size)) :
    (Fin B → Fin T → Fin cfg.vocab_size → ℚ) × Option ℚ :=
  (fun b => gptBody K cfg p hT (idx b),
   targets.map (meanFlatCE K (fun b => gptBody K cfg p hT (idx b))))

/-- `GPT.forward` including the `assert T <= self.config.block_size` input
validation: an over-long sequence fails (returns `none`) before any logits
are computed. -/
def GPTforwardChecked (K : Kernels) (cfg : GPTConfig) (p : GPTParams cfg) (B T : ℕ)
    (idx : Fin B → Fin T → Fin cfg.vocab_size)
    (targets : Option (Fin B → Fin T → Fin cfg.vocab_size)) :
    Option ((Fin B → Fin T → Fin cfg.vocab_size → ℚ) × Option ℚ) :=
  if hT : T ≤ cfg.block_size then some (GPTforward K cfg p hT idx targets) else none

/-- The mutable state of `DataLoaderLite` (train.py lines 150-178): the token
sequence and the cursor `current`.  `B` and `T` are the constructor
arguments. -/
structure DLState (B T : ℕ) where
  tokens : List ℕ
  current : ℕ
deriving DecidableEq

/-- `DataLoaderLite.next_batch` (train.py lines 168-178).
`buff = tokens[current : current + B*T + 1]`; the `view(B, T)` calls succeed
exactly when `buff[:-1]` has `B*T` elements, i.e. when the slice is full
(otherwise PyTorch raises, modelled as `none`); the cursor advances by
`B*T` and resets to `0` when `current + B*T + 1 >= len(tokens)`. -/
def next_batch {B T : ℕ} (s : DLState B T) :
    Option ((Fin B → Fin T → ℕ) × (Fin B → Fin T → ℕ) × DLState B T) :=
  if ((s.tokens.drop s.current).take (B * T + 1)).length = B * T + 1 then
    some (fun b t => ((s.tokens.drop s.current).take (B * T + 1)).getD (b.val * T + t.val) 0,
          fun b t => ((s.tokens.drop s.current).take (B * T + 1)).getD (b.val * T + t.val + 1) 0,
          ⟨s.tokens,
           if s.tokens.length ≤ s.current + B * T + (B * T + 1) then 0
           else s.current + B * T⟩)
  else none

/-- Iterates `next_batch` `n` times, recording for every successful call the
token indices it read (the indices of `buff`, i.e. `current .. current + B*T`);
propagates a failure of any call. -/
def runLoader {B T : ℕ} : ℕ → DLState B T → Option (DLState B T × List ℕ)
  | 0, s => some (s, [])
  | n + 1, s =>
      match next_batch s with
      | none => none
      | some (_, _, s') =>
          match runLoader n s' with
          | none => none
          | some (sf, vis) =>
              some (sf, ((List.range (B * T + 1)).map (s.current + ·)) ++ vis)

/-- The cursor of `DataLoaderLite` before the `k`-th call of `next_batch`,
for a sequence of length `L` and window `W = B*T`, starting from `0`. -/
def curAt (L W : ℕ) : ℕ → ℕ
  | 0 => 0
  | k + 1 => if L ≤ curAt L W k + W + (W + 1) then 0 else curAt L W k + W

/-- The token indices read by the first `n` calls of `next_batch` (the `k`-th
call reads `curAt k .. curAt k + W`). -/
def visList (L W : ℕ) (n : ℕ) : List ℕ :=
  (List.range n).flatMap (fun k => (List.range (W + 1)).map (curAt L W k + ·))

/-- `get_lr` (train.py lines 181-189), parametrized by the schedule constants
and by `cospi : ℚ → ℚ` modelling `r ↦ cos (π * r)`.  The
`assert 0 <= decay_ratio <= 1` is modelled by returning `none` when it
fails. -/
structure LrConfig where
  max_lr : ℚ
  min_lr : ℚ
  warmup_steps : ℕ
  max_steps : ℕ

/-- The body of `get_lr`: warmup ramp, post-schedule clamp, otherwise cosine
decay guarded by the assertion on `decay_ratio`. -/
def get_lr (cospi : ℚ → ℚ) (c : LrConfig) (it : ℕ) : Option ℚ :=
  if it < c.warmup_steps then
    some (c.max_lr * ((it : ℚ) + 1) / (c.warmup_steps : ℚ))
  else if c.max_steps < it then
    some c.min_lr
  else
    if 0 ≤ ((it : ℚ) - (c.warmup_steps : ℚ)) / ((c.max_steps : ℚ) - (c.warmup_steps : ℚ))
        ∧ ((it : ℚ) - (c.warmup_steps : ℚ)) / ((c.max_steps : ℚ) - (c.warmup_steps : ℚ)) ≤ 1 then
      some (c.min_lr
        + (1 / 2 * (1 + cospi (((it : ℚ) - (c.warmup_steps : ℚ))
              / ((c.max_steps : ℚ) - (c.warmup_steps : ℚ)))))
          * (c.max_lr - c.min_lr))
    else none

/-- Squared euclidean norm of a flattened per-example gradient vector. -/
def sqNorm {n : ℕ} (g : Fin n → ℚ) : ℚ := ∑ i, g i ^ 2

/-- Modelled from the spec: the per-example gradient clipping installed by
`privacy_engine.make_private(..., max_grad_norm=C)` (train.py lines 224-232);
the clipping code itself lives in the external `opacus` library, not in this
repository.  Per the spec (§4.3), each per-example gradient is rescaled so
that its full-parameter-vector norm does not exceed the threshold `C`:
`g ↦ min 1 (C / ‖g‖) • g`.  The norm `‖g‖` of a rational vector is
irrational in general, so it is supplied as the argument `nrm`, constrained
in the theorems by `0 ≤ nrm` and `nrm ^ 2 = sqNorm g`. -/
def clipGrad {n : ℕ} (C nrm : ℚ) (g : Fin n → ℚ) : Fin n → ℚ :=
  fun i => min 1 (C / nrm) * g i

/-- The distribution a parameter tensor holds after initialization. -/
inductive InitDist where
  | normalD (mean std : ℚ)
  | constD (c : ℚ)
  | kaimingUniform
  | linearBiasUniform
deriving DecidableEq

/-- The kind of a leaf submodule of `GPT`, as `_init_weights` distinguishes
them: `nn.Linear` (with or without bias, with or without the
`NANOGPT_SCALE_INIT` tag), `nn.Embedding`, `nn.LayerNorm`. -/
inductive ModKind where
  | linearK (hasBias : Bool) (scaleTag : Bool)
  | embeddingK
  | layerNormK
deriving DecidableEq

/-- Weight and (optional) bias distribution of one module. -/
structure ParamInit where
  wdist : InitDist
  bdist : Option InitDist
deriving DecidableEq

/-- PyTorch's own default initialization, in force before `self.apply`
runs: Kaiming-uniform weight and uniform bias for `nn.Linear`, standard
normal for `nn.Embedding`, ones/zeros for `nn.LayerNorm`. -/
def defaultInit : ModKind → ParamInit
  | .linearK hasBias _ => ⟨.kaimingUniform, if hasBias then some .linearBiasUniform else none⟩
  | .embeddingK => ⟨.normalD 0 1, none⟩
  | .layerNormK => ⟨.constD 1, some (.constD 0)⟩

/-- `GPT._init_weights` (train.py lines 92-101), applied to one module with
state `st`, with `invSqrt : ℚ → ℚ` modelling `x ↦ x ** (-0.5)`:
a `Linear` gets `normal(0, 0.02)` weights — scaled by `(2*n_layer) ** -0.5`
when tagged `NANOGPT_SCALE_INIT` — and zero bias; an `Embedding` gets
`normal(0, 0.02)` weights; anything else is left untouched. -/
def initWeights (invSqrt : ℚ → ℚ) (n_layer : ℕ) (k : ModKind) (st : ParamInit) : ParamInit :=
  match k with
  | .linearK hasBias scaleTag =>
      ⟨.normalD 0 (if scaleTag then 1 / 50 * invSqrt ((2 * n_layer : ℕ) : ℚ) else 1 / 50),
       if hasBias then some (.constD 0) else none⟩
  | .embeddingK => ⟨.normalD 0 (1 / 50), st.bdist⟩
  | .layerNormK => st

/-- Names of the leaf modules of `GPT`. -/
inductive ModName where
  | wte | wpe
  | ln_1 (i : ℕ) | ln_2 (i : ℕ)
  | attn_c_attn (i : ℕ) | attn_c_proj (i : ℕ)
  | mlp_c_fc (i : ℕ) | mlp_c_proj (i : ℕ)
  | ln_f | lm_head
deriving DecidableEq

/-- The leaf modules registered inside one `Block` (train.py lines 49-55,
25-34, 63-69): `ln_1`, `ln_2`, the attention projections and the MLP
projections.  `attn.c_proj` and `mlp.c_proj` carry the
`NANOGPT_SCALE_INIT` tag (lines 31 and 68). -/
def blockModules (i : ℕ) : List (ModName × ModKind) :=
  [(.ln_1 i, .layerNormK), (.ln_2 i, .layerNormK),
   (.attn_c_attn i, .linearK true false), (.attn_c_proj i, .linearK true true),
   (.mlp_c_fc i, .linearK true false), (.mlp_c_proj i, .linearK true true)]

/-- All leaf modules of `GPT` (train.py lines 76-89): the two embeddings,
`n_layer` blocks, the final layer norm, and the bias-free `lm_head`. -/
def gptModules (cfg : GPTConfig) : List (ModName × ModKind) :=
  [(.wte, .embeddingK), (.wpe, .embeddingK)]
    ++ (List.range cfg.n_layer).flatMap blockModules
    ++ [(.ln_f, .layerNormK), (.lm_head, .linearK false false)]

/-- The spec's designation of "residual-output projections": the attention
output projection and the second feed-forward projection of every block. -/
def isResidualOut : ModName → Bool
  | .attn_c_proj _ => true
  | .mlp_c_proj _ => true
  | _ => false

/-- The distribution each module's parameters hold after construction:
PyTorch default init followed by `self.apply(self._init_weights)`. -/
def finalInit (invSqrt : ℚ → ℚ) (cfg : GPTConfig) (k : ModKind) : ParamInit :=
  initWeights invSqrt cfg.n_layer k (defaultInit k)

/-- The two names aliased by the weight-tying assignment
`self.transformer.wte.weight = self.lm_head.weight` (train.py line 87). -/
inductive TiedName where
  | wte | lm_head
deriving DecidableEq

/-- An explicit-heap model of the two `(vocab, n_embd)`-shaped weight
tensors: `binds` maps each attribute name to the identifier of the tensor
object it currently references, `heap` maps identifiers to tensor
contents. -/
structure TiedStore (cfg : GPTConfig) where
  binds : TiedName → ℕ
  heap : ℕ → Fin cfg.vocab_size → Fin cfg.n_embd → ℚ

/-- Reading `<name>.weight`: follow the binding into the heap. -/
def TiedStore.lookup {cfg : GPTConfig} (s : TiedStore cfg) (n : TiedName) :
    Fin cfg.vocab_size → Fin cfg.n_embd → ℚ :=
  s.heap (s.binds n)

/-- An in-place mutation of the tensor currently referenced by `n`
(`normal_`, `zeros_`, an optimizer step): only the heap cell changes,
bindings are untouched. -/
def TiedStore.inPlace {cfg : GPTConfig} (s : TiedStore cfg) (n : TiedName)
    (f : (Fin cfg.vocab_size → Fin cfg.n_embd → ℚ) → Fin cfg.vocab_size → Fin cfg.n_embd → ℚ) :
    TiedStore cfg :=
  { s with heap := fun j => if j = s.binds n then f (s.heap j) else s.heap j }

/-- `GPT.__init__` (train.py lines 76-89) restricted to the two tensors of
interest: `nn.Embedding` allocates tensor `0` holding `w0`, `nn.Linear`
allocates tensor `1` holding `w1`, and then
`self.transformer.wte.weight = self.lm_head.weight` rebinds the `wte`
attribute to the `lm_head` tensor. -/
def constructGPT (cfg : GPTConfig) (w0 w1 : Fin cfg.vocab_size → Fin cfg.n_embd → ℚ) :
    TiedStore cfg :=
  { binds := fun n => match n with
      | .wte => 1
      | .lm_head => 1,
    heap := fun j => if j = 0 then w0 else w1 }

/-- A training run, as far as these two tensors are concerned: a sequence of
in-place mutations, each addressed through one of the attribute names
(initialization writes, optimizer steps). -/
def applyRun {cfg : GPTConfig} (s : TiedStore cfg)
    (run : List (TiedName ×
      ((Fin cfg.vocab_size → Fin cfg.n_embd → ℚ) → Fin cfg.vocab_size → Fin cfg.n_embd → ℚ))) :
    TiedStore cfg :=
  run.foldl (fun st op => st.inPlace op.1 op.2) s

/-- Errors raised by the Python runtime in `GPT.generate`. -/
inductive PyErr where
  | typeError
  | indexError
deriving DecidableEq

/-- A Python value that is either a bare logits tensor or the
`(logits, loss)` tuple returned by `GPT.forward`. -/
inductive TensorOrTuple (B T V : ℕ) where
  | tensor3 (data : Fin B → Fin T → Fin V → ℚ)
  | tuple2 (logits : Fin B → Fin T → Fin V → ℚ) (loss : Option ℚ)

/-- Python semantics of the subscript `obj[:, -1]`: on a 3-d tensor it
selects the last position of every batch row; on a tuple the non-integer
index raises `TypeError` (`tuple indices must be integers or slices`). -/
def sliceLastPos {B T V : ℕ} (o : TensorOrTuple B T V) :
    Except PyErr (Fin B → Fin V → ℚ) :=
  match o with
  | .tensor3 d =>
      if h : 0 < T then .ok (fun b => d b ⟨T - 1, by omega⟩) else .error .indexError
  | .tuple2 _ _ => .error .typeError

/-- `torch.argmax` over one row: index of the (first) maximal entry. -/
def argmaxRow {V : ℕ} (f : Fin V → ℚ) : Option (Fin V) :=
  (List.finRange V).foldl
    (fun best i => match best with
      | none => some i
      | some b => if f b < f i then some i else some b)
    none

/-- `GPT.generate` (train.py lines 121-126).  Each iteration crops the
context to the last `block_size` tokens, calls `self(x_cond)` — which
returns the tuple `(logits, loss)` — binds that tuple to `logits`, and
subscripts it with `[:, -1]`.  The sequence is a `Σ`-type because
`torch.cat` grows it by one column per iteration. -/
def GPTgenerate (K : Kernels) (cfg : GPTConfig) (p : GPTParams cfg) (B : ℕ) :
    ℕ → (Σ T : ℕ, Fin B → Fin T → Fin cfg.vocab_size) →
    Except PyErr (Σ T : ℕ, Fin B → Fin T → Fin cfg.vocab_size)
  | 0, st => .ok st
  | n + 1, ⟨T, x⟩ =>
      match sliceLastPos
          (TensorOrTuple.tuple2
            (GPTforward K cfg p (Nat.min_le_right T cfg.block_size)
              (fun b i => x b ⟨T - min T cfg.block_size + i.val, by
                have := i.isLt
                have h2 : min T cfg.block_size ≤ T := Nat.min_le_left _ _
                omega⟩)
              none).1
            (GPTforward K cfg p (Nat.min_le_right T cfg.block_size)
              (fun b i => x b ⟨T - min T cfg.block_size + i.val, by
                have := i.isLt
                have h2 : min T cfg.block_size ≤ T := Nat.min_le_left _ _
                omega⟩)
              none).2) with
      | .error e => .error e
      | .ok lastLogits =>
          if hV : 0 < cfg.vocab_size then
            GPTgenerate K cfg p B n
              ⟨T + 1, fun b t =>
                if h : t.val < T then x b ⟨t.val, h⟩
                else (argmaxRow (lastLogits b)).getD ⟨0, hV⟩⟩
          else .error .indexError

/-- One macro-step's micro-step loop acting on the accumulator
(train.py lines 246-255): each of the `G = grad_accum_steps` micro-steps
adds `loss / grad_accum_steps` to `loss_accum`. -/
def microLoop (G : ℕ) (losses : ℕ → ℚ) (acc : ℚ) : ℚ :=
  (List.range G).foldl (fun a m => a + losses m / (G : ℚ)) acc

/-- The value of `loss_accum` printed at the end of macro-step `s`
(train.py lines 238-268): `loss_accum = 0.0` is executed once before the
loop and the accumulator is never reset inside it, so step `s + 1`
continues from the value of step `s`.  `losses r m` is the (detached)
micro-batch loss of micro-step `m` of macro-step `r`. -/
def lossAccumAt (G : ℕ) (losses : ℕ → ℕ → ℚ) : ℕ → ℚ
  | 0 => microLoop G (losses 0) 0
  | s + 1 => microLoop G (losses (s + 1)) (lossAccumAt G losses s)

/-- Concrete tiny configuration used by the witnesses below:
block 2, vocabulary 2, one layer, one head, width 1, batch 1. -/
def cfgW : GPTConfig := ⟨2, 2, 1, 1, 1, 1⟩

/-- Concrete kernels for the witnesses. -/
def KW : Kernels := ⟨fun _ => 1, fun x => x, fun x => x, fun _ => 1⟩

/-- Concrete layer-norm parameters for the witnesses. -/
def lnW : LNParams 1 := ⟨![1], ![0]⟩

/-- Concrete block parameters for the witnesses. -/
def blockW : BlockParams 1 :=
  ⟨lnW, lnW, ⟨⟨![![1], ![1], ![1]], ![0, 0, 0]⟩, ⟨![![1]], ![0]⟩⟩,
   ⟨⟨![![1], ![1], ![1], ![1]], ![0, 0, 0, 0]⟩, ⟨![![1, 1, 1, 1]], ![0]⟩⟩⟩

/-- Concrete model parameters for the witnesses. -/
def paramsW : GPTParams cfgW := ⟨![![1], ![2]], ![![0], ![0]], fun _ => blockW, lnW⟩

/-- Concrete input batch for the witnesses. -/
def idxA : Fin 1 → Fin 2 → Fin 2 := fun _ _ => 0

/-- A second input batch agreeing with `idxA` at position 0 and differing at
position 1. -/
def idxB : Fin 1 → Fin 2 → Fin 2 := fun _ t => if t = 0 then 0 else 1

/-- C1.  Per-example gradient clipping: a per-example gradient whose
full-parameter-vector norm `nrm` exceeds the threshold `C` is rescaled to a
vector of norm exactly `C` (its squared norm is `C ^ 2`, and `C` is the only
nonnegative number whose square it is); a gradient with `nrm ≤ C` is left
unchanged. -/
theorem per_example_clipping {n : ℕ} (g : Fin n → ℚ) (C nrm : ℚ)
    (hn : 0 ≤ nrm) (hsq : nrm ^ 2 = sqNorm g) (hC : 0 < C) :
    (C < nrm →
      sqNorm (clipGrad C nrm g) = C ^ 2
      ∧ ∀ nrm2, 0 ≤ nrm2 → nrm2 ^ 2 = sqNorm (clipGrad C nrm g) → nrm2 = C)
  ∧ (nrm ≤ C → clipGrad C nrm g = g) := by
  have key : sqNorm (clipGrad C nrm g) = (min 1 (C / nrm)) ^ 2 * sqNorm g := by
    unfold sqNorm clipGrad
    rw [Finset.mul_sum]
    exact Finset.sum_congr rfl (fun i _ => by ring)
  constructor
  · intro hlt
    have hnrm0 : 0 < nrm := lt_trans hC hlt
    have hmin : min 1 (C / nrm) = C / nrm :=
      min_eq_right (le_of_lt ((div_lt_one hnrm0).2 hlt))
    have h1 : sqNorm (clipGrad C nrm g) = C ^ 2 := by
      rw [key, hmin, div_pow, ← hsq]
      field_simp
    refine ⟨h1, fun m hm0 hmsq => ?_⟩
    have hmc : m ^ 2 = C ^ 2 := by rw [hmsq, h1]
    have hf : (m - C) * (m + C) = 0 := by linear_combination hmc
    rcases mul_eq_zero.mp hf with h | h
    · linarith
    · linarith
  · intro hle
    rcases eq_or_lt_of_le hn with h0 | h0
    · have hg : ∀ i, g i = 0 := by
        intro i
        have hs0 : sqNorm g = 0 := by rw [← hsq, ← h0]; ring
        have hz := (Finset.sum_eq_zero_iff_of_nonneg
          (fun i _ => sq_nonneg (g i))).1 hs0 i (Finset.mem_univ i)
        exact pow_eq_zero_iff two_ne_zero |>.1 hz
      funext i
      simp [clipGrad, hg i]
    · have hmin : min 1 (C / nrm) = 1 := min_eq_left ((one_le_div h0).2 hle)
      funext i
      simp [clipGrad, hmin]

/-- Witness for C1: the gradient `(3, 4)` (norm 5) clipped at `C = 1` has
squared norm `1 = C ^ 2`; the gradient `(0, 1)` (norm 1) is unchanged. -/
theorem per_example_clipping_witness :
    ((0 : ℚ) ≤ 5 ∧ (5 : ℚ) ^ 2 = sqNorm ![(3 : ℚ), 4] ∧ (0 : ℚ) < 1 ∧ (1 : ℚ) < 5
      ∧ sqNorm (clipGrad 1 5 ![(3 : ℚ), 4]) = 1 ^ 2)
  ∧ ((0 : ℚ) ≤ 1 ∧ (1 : ℚ) ^ 2 = sqNorm ![(0 : ℚ), 1] ∧ (1 : ℚ) ≤ 1
      ∧ clipGrad 1 1 ![(0 : ℚ), 1] = ![(0 : ℚ), 1]) :=
  ⟨⟨by norm_num, by norm_num [sqNorm, Fin.sum_univ_two], by norm_num, by norm_num,
    ((per_example_clipping ![(3 : ℚ), 4] 1 5 (by norm_num)
        (by norm_num [sqNorm, Fin.sum_univ_two]) (by norm_num)).1
      (by norm_num)).1⟩,
   ⟨by norm_num, by norm_num [sqNorm, Fin.sum_univ_two], by norm_num,
    (per_example_clipping ![(0 : ℚ), 1] 1 1 (by norm_num)
        (by norm_num [sqNorm, Fin.sum_univ_two]) (by norm_num)).2
      (by norm_num)⟩⟩

/-- C4.  Learning-rate schedule boundary values: `rate 0 = max_lr / warmup_steps`,
`rate warmup_steps = max_lr`, `rate max_steps = min_lr`, `rate step = min_lr`
for every `step > max_steps`, and the function is total (the internal
assertion never fails) on every natural step.  `cospi` models `r ↦ cos (π r)`,
so `cospi 0 = 1` and `cospi 1 = -1`. -/
theorem lr_schedule_boundaries (cospi : ℚ → ℚ) (c : LrConfig)
    (hw : 0 < c.warmup_steps) (hwm : c.warmup_steps < c.max_steps)
    (hc0 : cospi 0 = 1) (hc1 : cospi 1 = -1) :
    get_lr cospi c 0 = some (c.max_lr / (c.warmup_steps : ℚ))
  ∧ get_lr cospi c c.warmup_steps = some c.max_lr
  ∧ get_lr cospi c c.max_steps = some c.min_lr
  ∧ (∀ it : ℕ, c.max_steps < it → get_lr cospi c it = some c.min_lr)
  ∧ (∀ it : ℕ, (get_lr cospi c it).isSome) := by
  have hden : ((c.max_steps : ℚ) - (c.warmup_steps : ℚ)) ≠ 0 := by
    have : (c.warmup_steps : ℚ) < (c.max_steps : ℚ) := by exact_mod_cast hwm
    exact sub_ne_zero.mpr (ne_of_gt this)
  refine ⟨?_, ?_, ?_, ?_, ?_⟩
  · rw [get_lr, if_pos hw]
    norm_num
  · rw [get_lr, if_neg (lt_irrefl _), if_neg (by omega)]
    rw [sub_self, zero_div]
    rw [if_pos ⟨le_refl 0, by norm_num⟩]
    rw [hc0]
    norm_num
  · rw [get_lr, if_neg (by omega), if_neg (lt_irrefl _)]
    rw [div_self hden]
    rw [if_pos ⟨by norm_num, le_refl 1⟩]
    rw [hc1]
    norm_num
  · intro it hit
    rw [get_lr, if_neg (by omega), if_pos hit]
  · intro it
    by_cases h1 : it < c.warmup_steps
    · rw [get_lr, if_pos h1]; rfl
    · by_cases h2 : c.max_steps < it
      · rw [get_lr, if_neg h1, if_pos h2]; rfl
      · have hwle : (c.warmup_steps : ℚ) ≤ (it : ℚ) := by exact_mod_cast Nat.le_of_not_lt h1
        have hmle : (it : ℚ) ≤ (c.max_steps : ℚ) := by exact_mod_cast Nat.le_of_not_lt h2
        have hdpos : (0 : ℚ) < (c.max_steps : ℚ) - (c.warmup_steps : ℚ) := by
          have : (c.warmup_steps : ℚ) < (c.max_steps : ℚ) := by exact_mod_cast hwm
          linarith
        rw [get_lr, if_neg h1, if_neg h2,
          if_pos ⟨div_nonneg (by linarith) (le_of_lt hdpos),
                  (div_le_one hdpos).2 (by linarith)⟩]
        rfl

/-- The concrete schedule constants of the script (train.py lines 201-204):
`max_lr = 6e-4`, `min_lr = 0.1 * max_lr`, `warmup_steps = 10`,
`max_steps = 100`. -/
def mainLrConfig : LrConfig := ⟨3 / 5000, 3 / 50000, 10, 100⟩

/-- A concrete stand-in for `r ↦ cos (π r)` satisfying the two boundary
values the schedule theorem needs. -/
def linCospi : ℚ → ℚ := fun r => 1 - 2 * r

/-- Witness for C4 at the script's schedule constants. -/
theorem lr_schedule_boundaries_witness :
    (0 < mainLrConfig.warmup_steps ∧ mainLrConfig.warmup_steps < mainLrConfig.max_steps
      ∧ linCospi 0 = 1 ∧ linCospi 1 = -1)
  ∧ (get_lr linCospi mainLrConfig 0
        = some (mainLrConfig.max_lr / (mainLrConfig.warmup_steps : ℚ))
    ∧ get_lr linCospi mainLrConfig mainLrConfig.warmup_steps = some mainLrConfig.max_lr
    ∧ get_lr linCospi mainLrConfig mainLrConfig.max_steps = some mainLrConfig.min_lr
    ∧ (∀ it : ℕ, mainLrConfig.max_steps < it → get_lr linCospi mainLrConfig it = some mainLrConfig.min_lr)
    ∧ (∀ it : ℕ, (get_lr linCospi mainLrConfig it).isSome)) :=
  ⟨⟨by norm_num [mainLrConfig], by norm_num [mainLrConfig],
    by norm_num [linCospi], by norm_num [linCospi]⟩,
   lr_schedule_boundaries linCospi mainLrConfig (by norm_num [mainLrConfig])
     (by norm_num [mainLrConfig]) (by norm_num [linCospi]) (by norm_num [linCospi])⟩

/-- Folding `a + f m / d` over a list accumulates `a` plus the sum of the
mapped values divided by `d`. -/
theorem foldl_add_div (f : ℕ → ℚ) (d : ℚ) :
    ∀ (l : List ℕ) (a : ℚ), l.foldl (fun x m => x + f m / d) a = a + (l.map f).sum / d
  | [], a => by simp
  | m :: l, a => by
    rw [List.foldl_cons, foldl_add_div f d l, List.map_cons, List.sum_cons, add_div]
    ring

/-- The sum of `f` over `List.range G` agrees with the `Finset.range` sum. -/
theorem sum_map_range (f : ℕ → ℚ) :
    ∀ G : ℕ, ((List.range G).map f).sum = ∑ m ∈ Finset.range G, f m
  | 0 => by simp
  | G + 1 => by
    rw [List.range_succ, List.map_append, List.sum_append, Finset.sum_range_succ,
      sum_map_range f G]
    simp

/-- One micro-step loop adds the mean micro-loss of the step. -/
theorem microLoop_eq (G : ℕ) (f : ℕ → ℚ) (a : ℚ) :
    microLoop G f a = a + (∑ m ∈ Finset.range G, f m) / (G : ℚ) := by
  rw [microLoop, foldl_add_div, sum_map_range]

/-- C10.  The `loss_accum` diagnostic is cumulative: because it is
initialized once before the training loop and never reset at the start of a
macro-step, the value recorded at macro-step `s` is the sum over macro-steps
`0..s` of each step's mean micro-step loss; whenever the per-micro-step
losses are nonnegative the recorded sequence is non-decreasing in `s`. -/
theorem loss_accum_cumulative (G : ℕ) (losses : ℕ → ℕ → ℚ) :
    (∀ s, lossAccumAt G losses s
        = ∑ r ∈ Finset.range (s + 1), (∑ m ∈ Finset.range G, losses r m) / (G : ℚ))
  ∧ ((∀ r m, 0 ≤ losses r m) → Monotone (lossAccumAt G losses)) := by
  have hform : ∀ s, lossAccumAt G losses s
      = ∑ r ∈ Finset.range (s + 1), (∑ m ∈ Finset.range G, losses r m) / (G : ℚ) := by
    intro s
    induction s with
    | zero => rw [lossAccumAt, microLoop_eq]; simp
    | succ s ih =>
        rw [lossAccumAt, microLoop_eq, ih, Finset.sum_range_succ _ (s + 1)]
  refine ⟨hform, fun hnn => monotone_nat_of_le_succ (fun s => ?_)⟩
  rw [hform, hform, Finset.sum_range_succ _ (s + 1)]
  have : 0 ≤ (∑ m ∈ Finset.range G, losses (s + 1) m) / (G : ℚ) :=
    div_nonneg (Finset.sum_nonneg (fun m _ => hnn _ m)) (by positivity)
  linarith

/-- Witness for C10 at `G = 2` and constant unit losses. -/
theorem loss_accum_cumulative_witness :
    (lossAccumAt 2 (fun _ _ => (1 : ℚ)) 1
        = ∑ _r ∈ Finset.range 2, (∑ _m ∈ Finset.range 2, (1 : ℚ)) / (2 : ℚ))
  ∧ ((∀ _r _m : ℕ, (0 : ℚ) ≤ (1 : ℚ))
    ∧ Monotone (lossAccumAt 2 (fun _ _ => (1 : ℚ)))) :=
  ⟨(loss_accum_cumulative 2 (fun _ _ => 1)).1 1,
   ⟨fun _ _ => by norm_num,
    (loss_accum_cumulative 2 (fun _ _ => 1)).2 (fun _ _ => by norm_num)⟩⟩

/-- C9.  `GPT.generate` always fails with a `TypeError` on its first
iteration, for every starting sequence and every `max_len ≥ 1`: `self(x)`
returns the tuple `(logits, loss)`, and the tuple is subscripted with
`[:, -1]` as if it were a logits tensor. -/
theorem generate_always_type_error (K : Kernels) (cfg : GPTConfig) (p : GPTParams cfg)
    (B : ℕ) (st : Σ T : ℕ, Fin B → Fin T → Fin cfg.vocab_size) (n : ℕ) (hn : 1 ≤ n) :
    GPTgenerate K cfg p B n st = .error .typeError := by
  obtain ⟨T, x⟩ := st
  match n, hn with
  | n + 1, _ => rfl

/-- Witness for C9: a one-token prompt with `max_len = 1`. -/
theorem generate_always_type_error_witness :
    1 ≤ 1
  ∧ GPTgenerate KW cfgW paramsW 1 1 ⟨1, fun _ _ => ⟨0, by norm_num [cfgW]⟩⟩
      = .error .typeError :=
  ⟨by norm_num,
   generate_always_type_error KW cfgW paramsW 1 ⟨1, fun _ _ => ⟨0, by norm_num [cfgW]⟩⟩ 1
     (by norm_num)⟩

/-- C3.  Weight tying: after `GPT.__init__`, the attribute names
`transformer.wte.weight` and `lm_head.weight` are bound to the same tensor
object; any training run consisting of in-place mutations (initialization
writes, optimizer updates) keeps the two reads identical; and an in-place
mutation addressed through either name changes both reads by the same
function. -/
theorem weight_tying (cfg : GPTConfig)
    (w0 w1 : Fin cfg.vocab_size → Fin cfg.n_embd → ℚ) :
    ((constructGPT cfg w0 w1).binds .wte = (constructGPT cfg w0 w1).binds .lm_head)
  ∧ (∀ run, (applyRun (constructGPT cfg w0 w1) run).lookup .wte
        = (applyRun (constructGPT cfg w0 w1) run).lookup .lm_head)
  ∧ (∀ s : TiedStore cfg, s.binds .wte = s.binds .lm_head →
      ∀ (nm : TiedName) f,
        (s.inPlace nm f).lookup .wte = f (s.lookup .wte)
        ∧ (s.inPlace nm f).lookup .lm_head = f (s.lookup .lm_head)) := by
  have hbindsRun : ∀ (s : TiedStore cfg) run, (applyRun s run).binds = s.binds := by
    intro s run
    induction run generalizing s with
    | nil => rfl
    | cons op l ih => exact ih (s.inPlace op.1 op.2)
  have halias : ∀ (s : TiedStore cfg), s.binds .wte = s.binds .lm_head →
      ∀ (nm : TiedName) f,
        (s.inPlace nm f).lookup .wte = f (s.lookup .wte)
        ∧ (s.inPlace nm f).lookup .lm_head = f (s.lookup .lm_head) := by
    intro s hs nm f
    have hnm : s.binds nm = s.binds .wte := by cases nm <;> simp [hs]
    constructor
    · simp [TiedStore.inPlace, TiedStore.lookup, hnm]
    · simp [TiedStore.inPlace, TiedStore.lookup, hnm, hs]
  refine ⟨rfl, fun run => ?_, halias⟩
  show (applyRun (constructGPT cfg w0 w1) run).heap
      ((applyRun (constructGPT cfg w0 w1) run).binds .wte)
    = (applyRun (constructGPT cfg w0 w1) run).heap
      ((applyRun (constructGPT cfg w0 w1) run).binds .lm_head)
  rw [hbindsRun]
  rfl

/-- Witness for C3: the aliasing clause applied to the freshly constructed
store with an identity in-place update through the `wte` name. -/
theorem weight_tying_witness :
    ((constructGPT cfgW (fun _ _ => 0) (fun _ _ => 1)).binds .wte
      = (constructGPT cfgW (fun _ _ => 0) (fun _ _ => 1)).binds .lm_head)
  ∧ (((constructGPT cfgW (fun _ _ => 0) (fun _ _ => 1)).inPlace .wte id).lookup .wte
      = id ((constructGPT cfgW (fun _ _ => 0) (fun _ _ => 1)).lookup .wte)
    ∧ ((constructGPT cfgW (fun _ _ => 0) (fun _ _ => 1)).inPlace .wte id).lookup .lm_head
      = id ((constructGPT cfgW (fun _ _ => 0) (fun _ _ => 1)).lookup .lm_head)) :=
  ⟨(weight_tying cfgW (fun _ _ => 0) (fun _ _ => 1)).1,
   (weight_tying cfgW (fun _ _ => 0) (fun _ _ => 1)).2.2 _ rfl .wte id⟩

/-- C7.  Sequence-length validation: a batch whose sequence length exceeds
`block_size` makes `GPT.forward` fail its `assert` before any logits are
computed (`none`); a batch with `T ≤ block_size` raises no such error. -/
theorem seq_len_validation (K : Kernels) (cfg : GPTConfig) (p : GPTParams cfg) (B T : ℕ)
    (idx : Fin B → Fin T → Fin cfg.vocab_size)
    (targets : Option (Fin B → Fin T → Fin cfg.vocab_size)) :
    (cfg.block_size < T → GPTforwardChecked K cfg p B T idx targets = none)
  ∧ (T ≤ cfg.block_size → (GPTforwardChecked K cfg p B T idx targets).isSome) := by
  constructor
  · intro h
    rw [GPTforwardChecked, dif_neg (by omega)]
  · intro h
    rw [GPTforwardChecked, dif_pos h]
    rfl

/-- Witness for C7: with `block_size = 2`, a length-3 batch is rejected and a
length-2 batch is accepted. -/
theorem seq_len_validation_witness :
    (cfgW.block_size < 3
      ∧ GPTforwardChecked KW cfgW paramsW 1 3 (fun _ _ => ⟨0, by norm_num [cfgW]⟩) none = none)
  ∧ ((2 : ℕ) ≤ cfgW.block_size
      ∧ (GPTforwardChecked KW cfgW paramsW 1 2 idxA none).isSome) :=
  ⟨⟨by norm_num [cfgW],
    (seq_len_validation KW cfgW paramsW 1 3 (fun _ _ => ⟨0, by norm_num [cfgW]⟩) none).1
      (by norm_num [cfgW])⟩,
   ⟨by norm_num [cfgW],
    (seq_len_validation KW cfgW paramsW 1 2 idxA none).2 (by norm_num [cfgW])⟩⟩

/-- C8.  Scaled initialization: after construction, every `nn.Linear` and
`nn.Embedding` weight of `GPT` is `normal(0, 0.02)`, except the modules the
spec designates residual-output projections — `attn.c_proj` and `mlp.c_proj`
in every block, exactly the ones carrying `NANOGPT_SCALE_INIT` — whose
standard deviation is `0.02 * (2 * n_layer) ** (-0.5)`; and every bias
present in the model (linear or layer-norm) is zero. -/
theorem scaled_initialization (invSqrt : ℚ → ℚ) (cfg : GPTConfig) :
    ∀ nm k, (nm, k) ∈ gptModules cfg →
      (∀ d, (finalInit invSqrt cfg k).bdist = some d → d = .constD 0)
      ∧ (k ≠ .layerNormK →
          (finalInit invSqrt cfg k).wdist
            = .normalD 0 (if isResidualOut nm then
                1 / 50 * invSqrt ((2 * cfg.n_layer : ℕ) : ℚ) else 1 / 50)) := by
  intro nm k hmem
  rcases List.mem_append.mp hmem with h12 | htail
  · rcases List.mem_append.mp h12 with hemb | hblocks
    · rcases List.mem_cons.mp hemb with h | h
      · obtain ⟨rfl, rfl⟩ := Prod.mk.injEq .. ▸ h
        exact ⟨fun d hd => by simp [finalInit, initWeights, defaultInit] at hd,
               fun _ => by simp [finalInit, initWeights, isResidualOut]⟩
      · rcases List.mem_cons.mp h with h' | h'
        · obtain ⟨rfl, rfl⟩ := Prod.mk.injEq .. ▸ h'
          exact ⟨fun d hd => by simp [finalInit, initWeights, defaultInit] at hd,
                 fun _ => by simp [finalInit, initWeights, isResidualOut]⟩
        · simp at h'
    · obtain ⟨i, _, hmem'⟩ := List.mem_flatMap.mp hblocks
      simp only [blockModules, List.mem_cons, List.not_mem_nil, or_false] at hmem'
      rcases hmem' with h | h | h | h | h | h <;>
        (obtain ⟨rfl, rfl⟩ := Prod.mk.injEq .. ▸ h) <;>
        refine ⟨fun d hd => ?_, fun hk => ?_⟩ <;>
        simp_all [finalInit, initWeights, defaultInit, isResidualOut]
  · rcases List.mem_cons.mp htail with h | h
    · obtain ⟨rfl, rfl⟩ := Prod.mk.injEq .. ▸ h
      refine ⟨fun d hd => ?_, fun hk => ?_⟩ <;>
        simp_all [finalInit, initWeights, defaultInit, isResidualOut]
    · rcases List.mem_cons.mp h with h' | h'
      · obtain ⟨rfl, rfl⟩ := Prod.mk.injEq .. ▸ h'
        refine ⟨fun d hd => ?_, fun hk => ?_⟩ <;>
          simp_all [finalInit, initWeights, defaultInit, isResidualOut]
      · simp at h'

/-- Witness for C8: the tagged module `attn.c_proj` of block 0 in a one-layer
configuration gets the reduced standard deviation and a zero bias. -/
theorem scaled_initialization_witness :
    ((ModName.attn_c_proj 0, ModKind.linearK true true) ∈ gptModules cfgW)
  ∧ ((∀ d, (finalInit (fun _ => 1) cfgW (.linearK true true)).bdist = some d → d = .constD 0)
    ∧ (ModKind.linearK true true ≠ .layerNormK →
        (finalInit (fun _ => 1) cfgW (.linearK true true)).wdist
          = .normalD 0 (if isResidualOut (.attn_c_proj 0) then
              1 / 50 * (fun _ => (1 : ℚ)) ((2 * cfgW.n_layer : ℕ) : ℚ) else 1 / 50))) :=
  ⟨by decide,
   scaled_initialization (fun _ => 1) cfgW (.attn_c_proj 0) (.linearK true true) (by decide)⟩

/-- `flatPair` is a bijection from flattened row indices to `(batch, position)`
pairs. -/
theorem flatPair_bijective {B T : ℕ} : Function.Bijective (flatPair (B := B) (T := T)) := by
  constructor
  · intro r r' h
    have hd : r.val / T = r'.val / T := congrArg (fun q => q.1.val) h
    have hm : r.val % T = r'.val % T := congrArg (fun q => q.2.val) h
    have e1 := Nat.div_add_mod r.val T
    have e2 := Nat.div_add_mod r'.val T
    apply Fin.ext
    rw [← e1, ← e2, hd, hm]
  · intro q
    have h1 := q.1.isLt
    have h2 := q.2.isLt
    have hTpos : 0 < T := q.2.pos
    refine ⟨⟨q.1.val * T + q.2.val, ?_⟩, ?_⟩
    · calc q.1.val * T + q.2.val < q.1.val * T + T := by omega
        _ = (q.1.val + 1) * T := by rw [Nat.succ_mul]
        _ ≤ B * T := Nat.mul_le_mul_right _ h1
    · have hdiv : (q.1.val * T + q.2.val) / T = q.1.val := by
        rw [Nat.mul_comm, Nat.mul_add_div hTpos, Nat.div_eq_of_lt h2, Nat.add_zero]
      have hmod : (q.1.val * T + q.2.val) % T = q.2.val := by
        rw [Nat.mul_comm, Nat.mul_add_mod, Nat.mod_eq_of_lt h2]
      unfold flatPair
      refine Prod.ext ?_ ?_ <;> apply Fin.ext
      · exact hdiv
      · exact hmod

/-- Summing any function of `(batch, position)` over the flattened row
indices equals the double sum over batch and position. -/
theorem sum_flatPair {B T : ℕ} (f : Fin B → Fin T → ℚ) :
    (∑ r : Fin (B * T), f (flatPair r).1 (flatPair r).2) = ∑ b : Fin B, ∑ t : Fin T, f b t := by
  rw [← Fintype.sum_prod_type']
  exact Fintype.sum_bijective flatPair flatPair_bijective _ _ (fun r => rfl)

/-- C5.  Forward loss contract: with targets supplied, `GPT.forward` returns
`some` of the token-level cross-entropy between the flattened logits and
flattened targets averaged over all `B * T` (batch × position) entries —
equivalently, the average over batch and position of the per-token
cross-entropy; with targets omitted it returns `none` as the loss. -/
theorem forward_loss_contract (K : Kernels) (cfg : GPTConfig) (p : GPTParams cfg)
    {B T : ℕ} (hT : T ≤ cfg.block_size) (idx tg : Fin B → Fin T → Fin cfg.vocab_size) :
    (GPTforward K cfg p hT idx (some tg)).2
      = some ((∑ b : Fin B, ∑ t : Fin T,
          crossEntropy K (gptBody K cfg p hT (idx b) t) (tg b t)) / ((B * T : ℕ) : ℚ))
  ∧ (GPTforward K cfg p hT idx none).2 = none := by
  constructor
  · have hsum : (∑ r : Fin (B * T),
        crossEntropy K (gptBody K cfg p hT (idx (flatPair r).1) (flatPair r).2)
          (tg (flatPair r).1 (flatPair r).2))
      = ∑ b : Fin B, ∑ t : Fin T, crossEntropy K (gptBody K cfg p hT (idx b) t) (tg b t) :=
      sum_flatPair (fun b t => crossEntropy K (gptBody K cfg p hT (idx b) t) (tg b t))
    show some (meanFlatCE K (fun b => gptBody K cfg p hT (idx b)) tg) = _
    rw [meanFlatCE, hsum]
  · rfl

/-- Witness for C5 at the tiny concrete model (the only hypothesis of the
contract is the length bound `T ≤ block_size`). -/
theorem forward_loss_contract_witness :
    ((2 : ℕ) ≤ cfgW.block_size)
  ∧ (GPTforward KW cfgW paramsW (by norm_num [cfgW]) idxA (some idxB)).2
      = some ((∑ b : Fin 1, ∑ t : Fin 2,
          crossEntropy KW (gptBody KW cfgW paramsW (by norm_num [cfgW]) (idxA b) t) (idxB b t))
        / ((1 * 2 : ℕ) : ℚ))
  ∧ (GPTforward KW cfgW paramsW (by norm_num [cfgW]) idxA none).2 = none :=
  ⟨by norm_num [cfgW],
   (forward_loss_contract KW cfgW paramsW (by norm_num [cfgW]) idxA idxB).1,
   (forward_loss_contract KW cfgW paramsW (by norm_num [cfgW]) idxA idxB).2⟩

/-- Two sequences agree on every position up to (and including) `t`. -/
def AgreeLe {T : ℕ} {α : Type*} (t : Fin T) (x y : Fin T → α) : Prop :=
  ∀ s, s ≤ t → x s = y s

/-- The fused qkv projection only reads the input at its own position. -/
theorem qkvOf_agree {E T : ℕ} (p : AttnParams E) {x y : Fin T → Fin E → ℚ} {t : Fin T}
    (hxy : AgreeLe t x y) : ∀ s, s ≤ t → qkvOf p x s = qkvOf p y s := by
  intro s hs
  unfold qkvOf
  rw [hxy s hs]

/-- Attention scores at query position `t` for a key position `s ≤ t` only
read the input at positions `≤ t`. -/
theorem attScores_agree {E T : ℕ} (K : Kernels) (nh : ℕ) (p : AttnParams E)
    {x y : Fin T → Fin E → ℚ} {t : Fin T} (hxy : AgreeLe t x y)
    (hd : Fin nh) {s : Fin T} (hs : s ≤ t) :
    attScores K nh p x t hd s = attScores K nh p y t hd s := by
  unfold attScores
  rw [qkvOf_agree p hxy t (le_refl t), qkvOf_agree p hxy s hs]

/-- The per-head causal attention output at position `t` only reads the
input at positions `≤ t`. -/
theorem attHead_agree {E T : ℕ} (K : Kernels) (nh : ℕ) (p : AttnParams E)
    {x y : Fin T → Fin E → ℚ} {t : Fin T} (hxy : AgreeLe t x y)
    (hd : Fin nh) (j : Fin (E / nh)) :
    attHead K nh p x t hd j = attHead K nh p y t hd j := by
  unfold attHead
  have hden : (∑ u ∈ Finset.univ.filter (fun u => u ≤ t), K.qexp (attScores K nh p x t hd u))
      = ∑ u ∈ Finset.univ.filter (fun u => u ≤ t), K.qexp (attScores K nh p y t hd u) :=
    Finset.sum_congr rfl (fun u hu => by
      rw [attScores_agree K nh p hxy hd (Finset.mem_filter.mp hu).2])
  refine Finset.sum_congr rfl (fun s hs => ?_)
  have hst : s ≤ t := (Finset.mem_filter.mp hs).2
  rw [attScores_agree K nh p hxy hd hst, hden, qkvOf_agree p hxy s hst]

/-- `SelfAttention.forward` is causal: its output at position `t` only reads
the input at positions `≤ t`. -/
theorem selfAttention_agree {E T : ℕ} (K : Kernels) (nh : ℕ) (p : AttnParams E)
    {x y : Fin T → Fin E → ℚ} {t : Fin T} (hxy : AgreeLe t x y) :
    selfAttention K nh p x t = selfAttention K nh p y t := by
  have hY : attnY K nh p x t = attnY K nh p y t := by
    funext c
    unfold attnY
    split
    · exact attHead_agree K nh p hxy _ _
    · rfl
  unfold selfAttention
  rw [hY]

/-- The first residual stage of a block preserves agreement up to `t`. -/
theorem blockAttnStage_agree {E T : ℕ} (K : Kernels) (nh : ℕ) (p : BlockParams E)
    {x y : Fin T → Fin E → ℚ} {t : Fin T} (hxy : AgreeLe t x y) :
    AgreeLe t (blockAttnStage K nh p x) (blockAttnStage K nh p y) := by
  intro s hs
  have hln : AgreeLe s (fun u => layerNorm K.rsqrt p.ln_1 (x u))
      (fun u => layerNorm K.rsqrt p.ln_1 (y u)) := by
    intro u hu
    show layerNorm K.rsqrt p.ln_1 (x u) = layerNorm K.rsqrt p.ln_1 (y u)
    rw [hxy u (le_trans hu hs)]
  unfold blockAttnStage
  rw [hxy s hs, selfAttention_agree K nh p.attn hln]

/-- A whole transformer block preserves agreement up to `t`. -/
theorem blockForward_agree {E T : ℕ} (K : Kernels) (nh : ℕ) (p : BlockParams E)
    {x y : Fin T → Fin E → ℚ} {t : Fin T} (hxy : AgreeLe t x y) :
    AgreeLe t (blockForward K nh p x) (blockForward K nh p y) := by
  intro s hs
  have hb := blockAttnStage_agree K nh p hxy
  unfold blockForward
  rw [hb s hs]

/-- Folding any list of blocks preserves agreement up to `t`. -/
theorem foldl_blocks_agree {E T : ℕ} {ι : Type*} (K : Kernels) (nh : ℕ) {t : Fin T} :
    ∀ (l : List ι) (P : ι → BlockParams E) (x y : Fin T → Fin E → ℚ), AgreeLe t x y →
      AgreeLe t (l.foldl (fun a i => blockForward K nh (P i) a) x)
        (l.foldl (fun a i => blockForward K nh (P i) a) y)
  | [], _, _, _, hxy => hxy
  | i :: l, P, x, y, hxy => by
    rw [List.foldl_cons, List.foldl_cons]
    exact foldl_blocks_agree K nh l P _ _ (blockForward_agree K nh (P i) hxy)

/-- C2.  Causal masking: for every batch and every position `t`, the logits
`GPT.forward` produces at position `t` are identical across any two input
batches that agree on all token ids at positions `≤ t`, regardless of the
token ids at positions `> t`. -/
theorem causal_masking (K : Kernels) (cfg : GPTConfig) (p : GPTParams cfg)
    {B T : ℕ} (hT : T ≤ cfg.block_size)
    (idx1 idx2 : Fin B → Fin T → Fin cfg.vocab_size) (t : Fin T)
    (hagree : ∀ b s, s ≤ t → idx1 b s = idx2 b s) :
    ∀ b, (GPTforward K cfg p hT idx1 none).1 b t = (GPTforward K cfg p hT idx2 none).1 b t := by
  intro b
  have h0 : AgreeLe t (fun s => p.wpe (Fin.castLE hT s) + p.wte (idx1 b s))
      (fun s => p.wpe (Fin.castLE hT s) + p.wte (idx2 b s)) := by
    intro s hs
    show p.wpe (Fin.castLE hT s) + p.wte (idx1 b s) = p.wpe (Fin.castLE hT s) + p.wte (idx2 b s)
    rw [hagree b s hs]
  have hf := foldl_blocks_agree K cfg.n_head (List.finRange cfg.n_layer) p.h _ _ h0
  show gptBody K cfg p hT (idx1 b) t = gptBody K cfg p hT (idx2 b) t
  funext v
  unfold gptBody
  rw [hf t (le_refl t)]

/-- Witness for C2: at the tiny concrete model, `idxA` and `idxB` agree at
position 0 (and differ at position 1), so the logits at position 0
coincide. -/
theorem causal_masking_witness :
    ((2 : ℕ) ≤ cfgW.block_size ∧ (∀ b s, s ≤ (0 : Fin 2) → idxA b s = idxB b s))
  ∧ (∀ b, (GPTforward KW cfgW paramsW (by norm_num [cfgW]) idxA none).1 b 0
      = (GPTforward KW cfgW paramsW (by norm_num [cfgW]) idxB none).1 b 0) :=
  ⟨⟨by norm_num [cfgW], by decide⟩,
   causal_masking KW cfgW paramsW (by norm_num [cfgW]) idxA idxB 0 (by decide)⟩

/-- Reading `tokens[c : c + n]` at offset `i < n` reads `tokens[c + i]`. -/
theorem getD_take_drop (l : List ℕ) (c n i : ℕ) (hi : i < n) :
    ((l.drop c).take n).getD i 0 = l.getD (c + i) 0 := by
  rw [List.getD_eq_getElem?_getD, List.getD_eq_getElem?_getD, List.getElem?_take,
    if_pos hi, List.getElem?_drop]

/-- When the slice is full (`current + B*T + 1 ≤ L`), `next_batch` succeeds
and returns the two shifted windows plus the advanced (or wrapped) cursor. -/
theorem next_batch_eq {B T : ℕ} (s : DLState B T)
    (hgood : s.current + B * T + 1 ≤ s.tokens.length) :
    next_batch s = some
      (fun b t => s.tokens.getD (s.current + (b.val * T + t.val)) 0,
       fun b t => s.tokens.getD (s.current + (b.val * T + t.val + 1)) 0,
       ⟨s.tokens,
        if s.tokens.length ≤ s.current + B * T + (B * T + 1) then 0
        else s.current + B * T⟩) := by
  have hlen : ((s.tokens.drop s.current).take (B * T + 1)).length = B * T + 1 := by
    rw [List.length_take, List.length_drop]
    omega
  have hwin : ∀ (b : Fin B) (t : Fin T), b.val * T + t.val < B * T := by
    intro b t
    have hb := b.isLt
    have ht := t.isLt
    have h1 : b.val * T + t.val < (b.val + 1) * T := by
      rw [Nat.succ_mul]; omega
    have h2 : (b.val + 1) * T ≤ B * T := Nat.mul_le_mul_right _ hb
    omega
  rw [next_batch, if_pos hlen]
  refine congrArg some (Prod.ext ?_ (Prod.ext ?_ rfl))
  · funext b t
    exact getD_take_drop _ _ _ _ (by have := hwin b t; omega)
  · funext b t
    exact getD_take_drop _ _ _ _ (by have := hwin b t; omega)

/-- Every cursor the loader ever holds admits a full next slice. -/
theorem curAt_good (L W : ℕ) (hL : W + 1 ≤ L) : ∀ k, curAt L W k + W + 1 ≤ L
  | 0 => by rw [curAt]; omega
  | k + 1 => by
    rw [curAt]
    split
    · omega
    · omega

/-- Appending one call to the front of a range-indexed `flatMap`. -/
theorem flatMap_range_shift (g : ℕ → List ℕ) (n k : ℕ) :
    (List.range (n + 1)).flatMap (fun j => g (k + j))
      = g k ++ (List.range n).flatMap (fun j => g (k + 1 + j)) := by
  rw [List.range_succ_eq_map, List.flatMap_cons, List.flatMap_map]
  have h1 : k + 0 = k := Nat.add_zero k
  have h2 : (fun a => g (k + Nat.succ a)) = (fun j => g (k + 1 + j)) :=
    funext fun a => by congr 1; omega
  rw [h1, h2]

/-- The run of the loader, started anywhere on the cursor orbit: every call
succeeds, the cursor follows `curAt`, and the visited indices are the
successive windows. -/
theorem runLoader_eq {B T : ℕ} (tokens : List ℕ)
    (hL : B * T + 1 ≤ tokens.length) :
    ∀ n k, runLoader n (⟨tokens, curAt tokens.length (B * T) k⟩ : DLState B T)
      = some (⟨tokens, curAt tokens.length (B * T) (k + n)⟩,
          (List.range n).flatMap
            (fun j => (List.range (B * T + 1)).map (curAt tokens.length (B * T) (k + j) + ·)))
  | 0, k => by simp [runLoader]
  | n + 1, k => by
    have hgood := curAt_good tokens.length (B * T) hL k
    have hcur : (if tokens.length ≤ curAt tokens.length (B * T) k + B * T + (B * T + 1)
          then 0 else curAt tokens.length (B * T) k + B * T)
        = curAt tokens.length (B * T) (k + 1) := by
      rw [curAt]
    rw [runLoader, next_batch_eq _ hgood]
    simp only
    rw [hcur, runLoader_eq tokens hL n (k + 1)]
    simp only
    rw [flatMap_range_shift (fun j => (List.range (B * T + 1)).map
        (curAt tokens.length (B * T) j + ·)) n k]
    have hk : k + 1 + n = k + (n + 1) := by omega
    rw [hk]

/-- C6 counterexample: for `tokens = 0..9` (length `L = 10`) and window
`B*T = 3`, the `⌈L/(B·T)⌉ = 4` calls all succeed but read only the token
indices `0..6`: token index `7` (a valid position, `7 < 10`) is never
visited, because the cursor wraps to `0` as soon as the *next* window would
not fit, discarding the tail of the sequence. -/
theorem batch_sampler_coverage_cex :
    runLoader 4 (⟨List.range 10, 0⟩ : DLState 1 3)
      = some (⟨List.range 10, 0⟩, [0, 1, 2, 3, 3, 4, 5, 6, 0, 1, 2, 3, 3, 4, 5, 6])
  ∧ (7 : ℕ) ∉ [0, 1, 2, 3, 3, 4, 5, 6, 0, 1, 2, 3, 3, 4, 5, 6]
  ∧ (7 : ℕ) < (List.range 10).length := by decide

/-- Before the first wrap the cursor advances linearly: `curAt k = k * W`. -/
theorem curAt_lin (L W m : ℕ)
    (hmin : ∀ j, 1 ≤ j → j < m → (j + 1) * W + 1 < L) :
    ∀ k, k < m → curAt L W k = k * W := by
  intro k
  induction k with
  | zero => intro _; rw [curAt]; omega
  | succ k ih =>
    intro hk
    have hkW := ih (by omega)
    have hlt := hmin (k + 1) (by omega) hk
    have he : (k + 1 + 1) * W = k * W + W + W := by ring
    have hcond : ¬ (L ≤ k * W + W + (W + 1)) := by omega
    rw [curAt, hkW, if_neg hcond]
    have he2 : (k + 1) * W = k * W + W := by ring
    omega

/-- At call `m` — the first call whose next window would not fit — the
cursor wraps back to `0`. -/
theorem curAt_wrap (L W m : ℕ) (hm1 : 1 ≤ m) (hmspec : L ≤ (m + 1) * W + 1)
    (hmin : ∀ j, 1 ≤ j → j < m → (j + 1) * W + 1 < L) :
    curAt L W m = 0 := by
  obtain ⟨k, hk⟩ : ∃ k, m = k + 1 := ⟨m - 1, by omega⟩
  have hkW := curAt_lin L W m hmin k (by omega)
  have hsp : L ≤ (k + 1 + 1) * W + 1 := by rw [← hk]; exact hmspec
  have he : (k + 1 + 1) * W = k * W + W + W := by ring
  rw [hk, curAt, hkW, if_pos (by omega)]

/-- Every cursor on the orbit is one of `0, W, ..., (m-1)*W`. -/
theorem curAt_orbit (L W m : ℕ) (hm1 : 1 ≤ m) (hmspec : L ≤ (m + 1) * W + 1) :
    ∀ k, ∃ j, j + 1 ≤ m ∧ curAt L W k = j * W := by
  intro k
  induction k with
  | zero => exact ⟨0, by omega, by rw [curAt]; omega⟩
  | succ k ih =>
    obtain ⟨j, hjm, hje⟩ := ih
    by_cases hc : L ≤ j * W + W + (W + 1)
    · exact ⟨0, by omega, by rw [curAt, hje, if_pos hc]; omega⟩
    · refine ⟨j + 1, ?_, ?_⟩
      · by_contra hcon
        have hmul : (m + 1) * W ≤ (j + 1 + 1) * W := Nat.mul_le_mul_right _ (by omega)
        have he : (j + 1 + 1) * W = j * W + W + W := by ring
        omega
      · rw [curAt, hje, if_neg hc]
        have he2 : (j + 1) * W = j * W + W := by ring
        omega

/-- The ceiling division `⌈L/W⌉ = (L + W - 1) / W` is at least 1 and its
product with `W` reaches `L`. -/
theorem ceil_div_facts (L W : ℕ) (hW : 0 < W) (hL : 1 ≤ L) :
    1 ≤ (L + W - 1) / W ∧ L ≤ ((L + W - 1) / W) * W := by
  have h := Nat.div_add_mod (L + W - 1) W
  have hr : (L + W - 1) % W < W := Nat.mod_lt _ hW
  have hc : W * ((L + W - 1) / W) = ((L + W - 1) / W) * W := Nat.mul_comm _ _
  have h1 : 1 ≤ (L + W - 1) / W := (Nat.le_div_iff_mul_le hW).mpr (by omega)
  exact ⟨h1, by omega⟩

/-- Every index up to `m * W` is visited within the first `q ≥ m` calls. -/
theorem visList_cover (L W m q : ℕ) (hW : 0 < W) (hm1 : 1 ≤ m) (hmq : m ≤ q)
    (hlin : ∀ k, k < m → curAt L W k = k * W) :
    ∀ i, i ≤ m * W → i ∈ visList L W q := by
  intro i hi
  have hdm := Nat.div_add_mod i W
  have hmod : i % W < W := Nat.mod_lt _ hW
  rcases le_or_lt (i / W) (m - 1) with hd | hd
  · have hcl := hlin (i / W) (by omega)
    have hcomm : W * (i / W) = (i / W) * W := Nat.mul_comm _ _
    refine List.mem_flatMap.mpr ⟨i / W, List.mem_range.mpr (by omega), ?_⟩
    refine List.mem_map.mpr ⟨i - curAt L W (i / W), List.mem_range.mpr ?_, ?_⟩
    · rw [hcl]; omega
    · show curAt L W (i / W) + (i - curAt L W (i / W)) = i
      rw [hcl]; omega
  · have hge : m ≤ i / W := by omega
    have hmul : m * W ≤ (i / W) * W := Nat.mul_le_mul_right _ hge
    have hcomm : W * (i / W) = (i / W) * W := Nat.mul_comm _ _
    have hcl := hlin (m - 1) (by omega)
    have hme : (m - 1 + 1) * W = (m - 1) * W + W := by ring
    have hm' : m - 1 + 1 = m := by omega
    refine List.mem_flatMap.mpr ⟨m - 1, List.mem_range.mpr (by omega), ?_⟩
    refine List.mem_map.mpr ⟨i - curAt L W (m - 1), List.mem_range.mpr ?_, ?_⟩
    · rw [hcl]; rw [hm'] at hme; omega
    · show curAt L W (m - 1) + (i - curAt L W (m - 1)) = i
      rw [hcl]; rw [hm'] at hme; omega

/-- No index beyond `m * W` is ever visited, by any number of calls. -/
theorem visList_tail (L W m : ℕ)
    (horbit : ∀ k, ∃ j, j + 1 ≤ m ∧ curAt L W k = j * W) :
    ∀ n i, i ∈ visList L W n → i ≤ m * W := by
  intro n i hi
  obtain ⟨k, hk, hmem⟩ := List.mem_flatMap.mp hi
  obtain ⟨d, hd, hde⟩ := List.mem_map.mp hmem
  obtain ⟨j, hjm, hje⟩ := horbit k
  rw [List.mem_range] at hd
  have hmul : (j + 1) * W ≤ m * W := Nat.mul_le_mul_right _ hjm
  have he : (j + 1) * W = j * W + W := by ring
  have hde2 : curAt L W k + d = i := hde
  rw [hje] at hde2
  omega

/-- C6 (amended).  For a token sequence of length `L ≥ B*T + 1` and window
`W = B*T ≥ 1`, starting from cursor `0`: (i) no call of `next_batch` ever
raises — every run of any length succeeds, the cursor follows the `curAt`
orbit and the visited indices are the successive windows; (ii) each call on
a full slice returns `B` contiguous windows split into an input and a
target shifted by one position, and advances the cursor by `B*T`, except
that it wraps the cursor to `0` when the next window would not fit; (iii)
there is an `m ≥ 1` with `m ≤ ⌈L/(B*T)⌉` such that after `m` calls the
cursor has wrapped back to the start, every token index `≤ m*(B*T)` is
visited within `⌈L/(B*T)⌉` calls, and no token index beyond `m*(B*T)` is
ever visited by any number of calls (the trailing tokens of the sequence
are skipped, so `⌈L/(B*T)⌉` calls need not visit every token). -/
theorem batch_sampler_amended {B T : ℕ} (tokens : List ℕ)
    (hW : 0 < B * T) (hL : B * T + 1 ≤ tokens.length) :
    (∀ n, runLoader n (⟨tokens, 0⟩ : DLState B T)
        = some (⟨tokens, curAt tokens.length (B * T) n⟩, visList tokens.length (B * T) n))
  ∧ (∀ s : DLState B T, s.current + B * T + 1 ≤ s.tokens.length →
      next_batch s = some
        (fun b t => s.tokens.getD (s.current + (b.val * T + t.val)) 0,
         fun b t => s.tokens.getD (s.current + (b.val * T + t.val + 1)) 0,
         ⟨s.tokens,
          if s.tokens.length ≤ s.current + B * T + (B * T + 1) then 0
          else s.current + B * T⟩))
  ∧ (∃ m, 1 ≤ m
      ∧ m ≤ (tokens.length + B * T - 1) / (B * T)
      ∧ curAt tokens.length (B * T) m = 0
      ∧ (∀ i, i ≤ m * (B * T) →
          i ∈ visList tokens.length (B * T) ((tokens.length + B * T - 1) / (B * T)))
      ∧ (∀ n i, i ∈ visList tokens.length (B * T) n → i ≤ m * (B * T))) := by
  have hrun : ∀ n, runLoader n (⟨tokens, 0⟩ : DLState B T)
      = some (⟨tokens, curAt tokens.length (B * T) n⟩, visList tokens.length (B * T) n) := by
    intro n
    have h := runLoader_eq tokens hL n 0
    simp only [Nat.zero_add] at h
    exact h
  refine ⟨hrun, fun s hs => next_batch_eq s hs, ?_⟩
  have hex : ∃ j, 1 ≤ j ∧ tokens.length ≤ (j + 1) * (B * T) + 1 := by
    refine ⟨tokens.length, by omega, ?_⟩
    have h1 : (tokens.length + 1) * 1 ≤ (tokens.length + 1) * (B * T) :=
      Nat.mul_le_mul_left _ hW
    omega
  obtain ⟨hm1, hmspec⟩ : 1 ≤ Nat.find hex
      ∧ tokens.length ≤ (Nat.find hex + 1) * (B * T) + 1 := Nat.find_spec hex
  have hmin : ∀ j, 1 ≤ j → j < Nat.find hex → (j + 1) * (B * T) + 1 < tokens.length := by
    intro j h1 hj
    have hn := Nat.find_min hex hj
    rw [not_and_or] at hn
    rcases hn with hn | hn
    · omega
    · omega
  obtain ⟨hq1, hqL⟩ := ceil_div_facts tokens.length (B * T) hW (by omega)
  have hmq : Nat.find hex ≤ (tokens.length + B * T - 1) / (B * T) := by
    refine Nat.find_min' hex ⟨hq1, ?_⟩
    have he : ((tokens.length + B * T - 1) / (B * T) + 1) * (B * T)
        = ((tokens.length + B * T - 1) / (B * T)) * (B * T) + B * T := by ring
    omega
  exact ⟨Nat.find hex, hm1, hmq,
    curAt_wrap tokens.length (B * T) (Nat.find hex) hm1 hmspec hmin,
    visList_cover tokens.length (B * T) (Nat.find hex)
      ((tokens.length + B * T - 1) / (B * T)) hW hm1 hmq
      (curAt_lin tokens.length (B * T) (Nat.find hex) hmin),
    visList_tail tokens.length (B * T) (Nat.find hex)
      (curAt_orbit tokens.length (B * T) (Nat.find hex) hm1 hmspec)⟩

/-- Witness for the amended C6 at `tokens = 0..9`, `B = 1`, `T = 3`
(projecting the no-error run equation at `n = 2`). -/
theorem batch_sampler_amended_witness :
    (0 < 1 * 3 ∧ 1 * 3 + 1 ≤ (List.range 10).length)
  ∧ runLoader 2 (⟨List.range 10, 0⟩ : DLState 1 3)
      = some (⟨List.range 10, curAt (List.range 10).length (1 * 3) 2⟩,
              visList (List.range 10).length (1 * 3) 2) :=
  ⟨⟨by decide, by decide⟩,
   (batch_sampler_amended (List.range 10) (by decide) (by decide)).1 2⟩
